import Mathlib

/-!
Verification of the design-system batch text-rewriting tool
(`apply_design_system.py`).

The tool's core is a rewrite engine: an ordered table of literal
`(pattern, replacement)` string pairs (`REPLACEMENTS`), applied in table
order to a text, each rule replacing every literal occurrence of its
pattern in the current accumulated text (Python `str.replace` semantics:
a single greedy left-to-right non-overlapping pass).  A thin orchestrator
reads each file of a fixed list, rewrites it, writes back only when the
text changed, and reports one of `UPDATED` / `NO CHANGES` / `MISSING`.

Texts are embedded as `List Char`; `String`-level wrappers mirror the
Python functions.  The filesystem is embedded as a partial map from
file names to contents.
-/

namespace DS

/-- A text is a list of characters. -/
abbrev Text := List Char

/-- `subB pat s` scans `s` left to right and decides whether the literal
pattern `pat` occurs in `s` as a contiguous substring. -/
def subB (pat : Text) : Text → Bool
  | [] => pat.isEmpty
  | c :: cs => pat.isPrefixOf (c :: cs) || subB pat cs

/-- `OccursIn pat s`: the literal pattern `pat` occurs contiguously in `s`. -/
def OccursIn (pat s : Text) : Prop := ∃ a b : Text, s = a ++ pat ++ b

/-- The recursive worker of Python's `str.replace` for a nonempty pattern:
scan left to right; on a match emit the replacement and resume after the
matched characters, otherwise keep the character.  The `Nat` argument is
recursion fuel (any value `≥` the length of the text gives the real
result); it keeps the definition structurally recursive. -/
def repGo (pat rep : Text) : Nat → Text → Text
  | _, [] => []
  | 0, s => s
  | n + 1, c :: cs =>
    if pat.isPrefixOf (c :: cs) then
      rep ++ repGo pat rep n (cs.drop (pat.length - 1))
    else
      c :: repGo pat rep n cs

/-- Python's `s.replace(old, new)` (no count argument): replace every
non-overlapping occurrence of `pat` in `s` by `rep`, scanning left to
right.  For the empty pattern Python inserts `rep` at every position. -/
def replaceAll (pat rep s : Text) : Text :=
  if pat.isEmpty then rep ++ (s.map fun c => c :: rep).flatten
  else repGo pat rep s.length s

/-- Worker splitting a text at the non-overlapping left-to-right
occurrences of a nonempty pattern (the pieces Python's `str.split`
would return); fuel as in `repGo`. -/
def splitGo (pat : Text) : Nat → Text → List Text
  | _, [] => [[]]
  | 0, s => [s]
  | n + 1, c :: cs =>
    if pat.isPrefixOf (c :: cs) then
      [] :: splitGo pat n (cs.drop (pat.length - 1))
    else
      match splitGo pat n cs with
      | [] => [[c]]
      | h :: t => (c :: h) :: t

/-- Split `s` at the greedy left-to-right occurrences of `pat`. -/
def splitAll (pat s : Text) : List Text := splitGo pat s.length s

/-- Join a list of texts with a separator between consecutive pieces. -/
def joinWith (sep : Text) : List Text → Text
  | [] => []
  | [p] => p
  | p :: ps => p ++ sep ++ joinWith sep ps

/-- Decidable junction conditions on a pattern and a separator under which
joining pattern-free pieces with the separator cannot contain or re-create
the pattern: the separator is nonempty, neither of the two strings occurs
inside the other, no nonempty proper suffix of the pattern is a prefix of
the separator, and no nonempty proper suffix of the separator is a prefix
of the pattern. -/
def sepOK (pat sep : Text) : Bool :=
  !sep.isEmpty
    && !(subB pat sep)
    && !(subB sep pat)
    && ((List.range pat.length).all fun i =>
          i == 0 || !((pat.drop i).isPrefixOf sep))
    && ((List.range sep.length).all fun i =>
          i == 0 || !((sep.drop i).isPrefixOf pat))

/-- A rule is safe for a pattern if its own pattern contains the pattern
(so the rule cannot fire on a pattern-free text), or if its replacement is
junction-safe for the pattern. -/
def safeRule (pat : Text) (pr : Text × Text) : Bool :=
  subB pat pr.1 || (!pr.1.isEmpty && sepOK pat pr.2)

/-- The engine of `process_file` (lines 151-152 of the source): fold the
rule table over the text, each rule replacing every occurrence of its
pattern in the accumulated text. -/
def applyRules (rules : List (Text × Text)) (s : Text) : Text :=
  rules.foldl (fun acc pr => replaceAll pr.1 pr.2 acc) s

/-- Modelled from the spec's words for the rewrite engine contract
(section 4.2): iterate the rule sequence in order; for each rule replace
every literal occurrence of its pattern in the current accumulated text
with its replacement (split at the occurrences and join with the
replacement); the accumulated text after one rule is the input to the
next; the final accumulated text is the result. -/
def applyRulesSpec : List (Text × Text) → Text → Text
  | [], s => s
  | pr :: rs, s => applyRulesSpec rs (joinWith pr.2 (splitAll pr.1 s))

section Program

/-- The replacement table of `apply_design_system.py` (lines 34-144),
in source order.  Order matters: the source comments require more
specific patterns first. -/
def REPLACEMENTS : List (String × String) := [
  ("bg-[#121212] backdrop-blur border border-slate-800 rounded-2xl",
    "rounded-2xl border border-gray-800 bg-white/[0.02]"),
  ("bg-[#121212]", "bg-gray-950"),
  ("bg-[#1a1a1a]", "bg-gray-900"),
  ("bg-[#0a0f1c]", "bg-gray-950"),
  ("bg-[#0a1020]", "bg-gray-950"),
  ("bg-[#0F172A]", "bg-gray-950"),
  ("hover:bg-slate-800/50", "hover:bg-white/[0.05]"),
  ("hover:bg-slate-700/30", "hover:bg-white/[0.05]"),
  ("hover:bg-slate-800/30", "hover:bg-white/[0.05]"),
  ("hover:bg-slate-800/20", "hover:bg-white/[0.05]"),
  ("hover:bg-slate-700", "hover:bg-gray-700"),
  ("hover:bg-slate-600", "hover:bg-gray-600"),
  ("border-slate-800/50", "border-gray-800"),
  ("border-slate-700/50", "border-gray-800"),
  ("border-slate-800", "border-gray-800"),
  ("border-slate-700", "border-gray-700"),
  ("bg-slate-800/50", "bg-white/[0.03]"),
  ("bg-slate-800/30", "bg-white/[0.03]"),
  ("bg-slate-800/20", "bg-white/[0.03]"),
  ("bg-slate-900/50", "bg-gray-900"),
  ("bg-slate-800", "bg-gray-800"),
  ("bg-slate-900", "bg-gray-900"),
  ("bg-slate-700", "bg-gray-700"),
  ("bg-slate-500/20", "bg-gray-500/20"),
  ("text-slate-600", "text-gray-500"),
  ("text-slate-500", "text-gray-500"),
  ("text-slate-400", "text-gray-400"),
  ("text-slate-300", "text-gray-300"),
  ("border-emerald-500/30", "border-success-500/20"),
  ("border-emerald-500/20", "border-success-500/15"),
  ("bg-emerald-900/50", "bg-success-500/5"),
  ("bg-emerald-900/40", "bg-success-500/5"),
  ("bg-emerald-900/30", "bg-success-500/5"),
  ("bg-emerald-900/20", "bg-success-500/5"),
  ("bg-emerald-900/10", "bg-success-500/5"),
  ("bg-emerald-800/20", "bg-success-500/5"),
  ("bg-emerald-500/20", "bg-success-500/10"),
  ("bg-emerald-500/10", "bg-success-500/10"),
  ("bg-emerald-500", "bg-success-500"),
  ("bg-emerald-600", "bg-success-600"),
  ("hover:bg-emerald-500", "hover:bg-success-400"),
  ("text-emerald-300", "text-success-300"),
  ("text-emerald-400", "text-success-400"),
  ("text-emerald-500", "text-success-500"),
  ("bg-red-500/20", "bg-error-500/10"),
  ("bg-red-500/10", "bg-error-500/10"),
  ("bg-red-900/50", "bg-error-500/10"),
  ("bg-red-900/30", "bg-error-500/10"),
  ("bg-red-600", "bg-error-600"),
  ("bg-red-500", "bg-error-500"),
  ("hover:bg-red-500", "hover:bg-error-500"),
  ("text-red-400", "text-error-400"),
  ("text-red-500", "text-error-500"),
  ("border-amber-500/30", "border-warning-500/20"),
  ("bg-amber-500/10", "bg-warning-500/5"),
  ("bg-amber-500/20", "bg-warning-500/5"),
  ("bg-amber-500", "bg-warning-500"),
  ("text-amber-400", "text-warning-400"),
  ("text-yellow-400", "text-warning-400"),
  ("border-purple-500/30", "border-brand-500/20"),
  ("border-purple-500/20", "border-brand-500/20"),
  ("bg-purple-900/30", "bg-brand-500/10"),
  ("bg-purple-900/20", "bg-brand-500/10"),
  ("bg-purple-800/30", "bg-brand-500/10"),
  ("bg-purple-500/20", "bg-brand-500/10"),
  ("bg-purple-500/10", "bg-brand-500/10"),
  ("bg-purple-600", "bg-brand-600"),
  ("bg-purple-500", "bg-brand-500"),
  ("hover:bg-purple-700", "hover:bg-brand-600"),
  ("hover:bg-purple-500", "hover:bg-brand-500"),
  ("text-purple-400", "text-brand-400"),
  ("text-purple-500", "text-brand-500"),
  ("text-purple-300", "text-brand-300"),
  ("ring-purple-500", "ring-brand-500"),
  ("focus:ring-purple-500", "focus:ring-brand-500"),
  ("text-blue-400", "text-blue-light-400"),
  ("text-blue-300", "text-blue-light-300"),
  ("bg-blue-500/20", "bg-brand-500/10"),
  ("bg-blue-600", "bg-brand-600"),
  ("bg-blue-500", "bg-brand-500"),
  ("focus:ring-2 focus:ring-brand-500",
    "focus:outline-hidden focus:ring-3 focus:ring-brand-500/10"),
  (" font-inter", ""),
  ("font-inter ", ""),
  ("font-inter", "")]

/-- The hardcoded target file list (lines 9-31 of the source). -/
def FILES : List String := [
  "ComparisonMatrix.tsx",
  "GhostDataChart.tsx",
  "SigmoidEditor.tsx",
  "AIScorecard.tsx",
  "StrategistInsights.tsx",
  "DeadbandGauges.tsx",
  "AnomalyLog.tsx",
  "AmazonConnect.tsx",
  "AuditHistory.tsx",
  "GalaxyMap.tsx",
  "IntelligenceBriefing.tsx",
  "EnterpriseOverview.tsx",
  "ProfitCalculator.tsx",
  "CampaignBrowser.tsx",
  "LiveShadowTicker.tsx",
  "MultiAgentTelemetry.tsx",
  "UCCLPanel.tsx",
  "LogViewer.tsx",
  "VerifiedSourceBadge.tsx",
  "MissedProfitTicker.tsx",
  "DecisionContextModal.tsx"]

/-- The rule table as character lists. -/
def RULES : List (Text × Text) :=
  REPLACEMENTS.map fun pr => (pr.1.data, pr.2.data)

/-- The rewrite engine on a whole text: the replacement loop of
`process_file` (lines 150-152). -/
def rewrite (t : String) : String := ⟨applyRules RULES t.data⟩

/-- Spec-modelled rewrite engine (section 4.2 of the spec), built from
`applyRulesSpec`. -/
def rewriteSpec (t : String) : String := ⟨applyRulesSpec RULES t.data⟩

/-- The pure content of `process_file` (lines 146-158): rewrite the
content, report the new content and whether it changed (the function
returns `True` exactly when it wrote the file). -/
def process_file (content : String) : String × Bool :=
  if rewrite content ≠ content then (rewrite content, true)
  else (rewrite content, false)

/-- A filesystem: a partial map from file names to contents. -/
abbrev Fs := String → Option String

/-- Per-file console outcome of `main` (lines 160-167). -/
inductive Outcome where
  | updated
  | noChanges
  | missing
  deriving DecidableEq, Repr

/-- One iteration of `main`'s loop for one file name: if the path does not
exist report `MISSING` and do nothing; otherwise run `process_file`, which
overwrites the file when the rewrite changed it (`UPDATED`) and leaves the
filesystem untouched otherwise (`NO CHANGES`). -/
def mainStep (fs : Fs) (filename : String) : Fs × Outcome :=
  match fs filename with
  | none => (fs, Outcome.missing)
  | some content =>
    let res := rewrite content
    if res ≠ content then
      (fun n => if n = filename then some res else fs n, Outcome.updated)
    else
      (fs, Outcome.noChanges)

/-- `main`'s loop over a list of file names, threading the filesystem and
collecting the per-file outcomes in order. -/
def mainRun (fs : Fs) : List String → Fs × List Outcome
  | [] => (fs, [])
  | f :: rest =>
    let step := mainStep fs f
    let next := mainRun step.1 rest
    (next.1, step.2 :: next.2)

end Program


/-- Ordering check for the claimed table invariant: for every pair of
rules, if the earlier rule's pattern occurs inside a distinct later
rule's pattern (the earlier one is more general), the check fails. -/
def specificFirstB : List (String × String) → Bool
  | [] => true
  | pr :: rest =>
    (rest.all fun q => !(subB pr.1.data q.1.data) || pr.1 == q.1)
      && specificFirstB rest

/-- An empty filesystem (used to instantiate the orchestrator theorems). -/
def fsEmpty : Fs := fun _ => none

/-- A one-file filesystem holding a component that the table rewrites. -/
def fsOne : Fs := fun n =>
  if n = "AmazonConnect.tsx" then some "text-slate-400" else none

section BasicLemmas

theorem isPrefixOf_eq {pat l : Text} :
    pat.isPrefixOf l = true ↔ ∃ r, l = pat ++ r := by
  induction pat generalizing l with
  | nil => simp [List.isPrefixOf]
  | cons a as ih =>
    cases l with
    | nil => simp [List.isPrefixOf]
    | cons b bs =>
      simp only [List.isPrefixOf, Bool.and_eq_true, beq_iff_eq, ih]
      constructor
      · rintro ⟨rfl, r, rfl⟩; exact ⟨r, rfl⟩
      · rintro ⟨r, h⟩
        cases h
        exact ⟨rfl, r, rfl⟩

theorem occursIn_nil {pat : Text} : OccursIn pat [] ↔ pat = [] := by
  constructor
  · rintro ⟨a, b, h⟩
    rcases List.append_eq_nil.mp h.symm with ⟨h1, h2⟩
    exact (List.append_eq_nil.mp h1).2
  · rintro rfl; exact ⟨[], [], rfl⟩

theorem occursIn_of_cons {pat c cs} (h : OccursIn pat cs) :
    OccursIn pat (c :: cs) := by
  obtain ⟨a, b, rfl⟩ := h
  exact ⟨c :: a, b, rfl⟩

theorem occursIn_cons_iff {pat : Text} {c : Char} {cs : Text} :
    OccursIn pat (c :: cs) ↔ (∃ r, c :: cs = pat ++ r) ∨ OccursIn pat cs := by
  constructor
  · rintro ⟨a, b, h⟩
    cases a with
    | nil => exact Or.inl ⟨b, by simpa using h⟩
    | cons x xs =>
      right
      rw [List.cons_append, List.cons_append, List.cons.injEq] at h
      exact ⟨xs, b, h.2⟩
  · rintro (⟨r, h⟩ | h)
    · exact ⟨[], r, by simpa using h⟩
    · exact occursIn_of_cons h

theorem subB_iff {pat s : Text} : subB pat s = true ↔ OccursIn pat s := by
  induction s with
  | nil =>
    simp only [subB, List.isEmpty_iff, occursIn_nil]
  | cons c cs ih =>
    simp only [subB, Bool.or_eq_true, ih, isPrefixOf_eq, occursIn_cons_iff]

theorem subB_eq_false {pat s : Text} : subB pat s = false ↔ ¬ OccursIn pat s := by
  rw [← subB_iff]
  cases h : subB pat s <;> simp

theorem occursIn_trans {pat p s : Text} (h1 : OccursIn pat p)
    (h2 : OccursIn p s) : OccursIn pat s := by
  obtain ⟨a, b, rfl⟩ := h1
  obtain ⟨x, y, rfl⟩ := h2
  exact ⟨x ++ a, b ++ y, by simp⟩

end BasicLemmas

section StepLemmas

theorem repGo_fuel (pat rep : Text) :
    ∀ (n m : Nat) (s : Text), s.length ≤ n → s.length ≤ m →
      repGo pat rep n s = repGo pat rep m s := by
  intro n
  induction n with
  | zero =>
    intro m s hn _
    have : s = [] := List.eq_nil_of_length_eq_zero (Nat.le_zero.mp hn)
    subst this
    cases m <;> rfl
  | succ k ih =>
    intro m s hn hm
    cases s with
    | nil => cases m <;> rfl
    | cons c cs =>
      cases m with
      | zero => exact absurd hm (by simp)
      | succ m' =>
        simp only [repGo]
        by_cases h : pat.isPrefixOf (c :: cs) = true
        · rw [if_pos h, if_pos h]
          have hlen : (cs.drop (pat.length - 1)).length ≤ cs.length := by
            rw [List.length_drop]; omega
          have hcs : cs.length ≤ k := by
            simp only [List.length_cons] at hn; omega
          have hcs' : cs.length ≤ m' := by
            simp only [List.length_cons] at hm; omega
          rw [ih m' _ (le_trans hlen hcs) (le_trans hlen hcs')]
        · rw [if_neg h, if_neg h]
          have hcs : cs.length ≤ k := by
            simp only [List.length_cons] at hn; omega
          have hcs' : cs.length ≤ m' := by
            simp only [List.length_cons] at hm; omega
          rw [ih m' _ hcs hcs']

theorem replaceAll_nil {pat : Text} (rep : Text) (h : pat ≠ []) :
    replaceAll pat rep [] = [] := by
  simp [replaceAll, List.isEmpty_iff, h, repGo]

theorem replaceAll_cons_hit {pat : Text} (rep : Text) {c : Char} {cs : Text}
    (hne : pat ≠ []) (h : pat.isPrefixOf (c :: cs) = true) :
    replaceAll pat rep (c :: cs) =
      rep ++ replaceAll pat rep (cs.drop (pat.length - 1)) := by
  have hni : pat.isEmpty = false := by
    cases pat with
    | nil => exact absurd rfl hne
    | cons a as => rfl
  simp only [replaceAll, hni, Bool.false_eq_true, if_false, List.length_cons]
  rw [repGo, if_pos h]
  congr 1
  exact repGo_fuel pat rep _ _ _ (by rw [List.length_drop]; omega) le_rfl

theorem replaceAll_cons_miss {pat : Text} (rep : Text) {c : Char} {cs : Text}
    (hne : pat ≠ []) (h : ¬ pat.isPrefixOf (c :: cs) = true) :
    replaceAll pat rep (c :: cs) = c :: replaceAll pat rep cs := by
  have hni : pat.isEmpty = false := by
    cases pat with
    | nil => exact absurd rfl hne
    | cons a as => rfl
  simp only [replaceAll, hni, Bool.false_eq_true, if_false, List.length_cons]
  rw [repGo, if_neg h]

theorem splitGo_fuel (pat : Text) :
    ∀ (n m : Nat) (s : Text), s.length ≤ n → s.length ≤ m →
      splitGo pat n s = splitGo pat m s := by
  intro n
  induction n with
  | zero =>
    intro m s hn _
    have : s = [] := List.eq_nil_of_length_eq_zero (Nat.le_zero.mp hn)
    subst this
    cases m <;> rfl
  | succ k ih =>
    intro m s hn hm
    cases s with
    | nil => cases m <;> rfl
    | cons c cs =>
      cases m with
      | zero => exact absurd hm (by simp)
      | succ m' =>
        have hcs : cs.length ≤ k := by
          simp only [List.length_cons] at hn; omega
        have hcs' : cs.length ≤ m' := by
          simp only [List.length_cons] at hm; omega
        simp only [splitGo]
        by_cases h : pat.isPrefixOf (c :: cs) = true
        · rw [if_pos h, if_pos h]
          have hlen : (cs.drop (pat.length - 1)).length ≤ cs.length := by
            rw [List.length_drop]; omega
          rw [ih m' _ (le_trans hlen hcs) (le_trans hlen hcs')]
        · rw [if_neg h, if_neg h, ih m' _ hcs hcs']

theorem splitAll_nil (pat : Text) : splitAll pat [] = [[]] := rfl

theorem splitAll_cons_hit {pat : Text} {c : Char} {cs : Text}
    (h : pat.isPrefixOf (c :: cs) = true) :
    splitAll pat (c :: cs) = [] :: splitAll pat (cs.drop (pat.length - 1)) := by
  simp only [splitAll, List.length_cons]
  rw [splitGo, if_pos h]
  congr 1
  exact splitGo_fuel pat _ _ _ (by rw [List.length_drop]; omega) le_rfl

theorem splitAll_cons_miss {pat : Text} {c : Char} {cs : Text}
    (h : ¬ pat.isPrefixOf (c :: cs) = true) :
    splitAll pat (c :: cs) =
      match splitAll pat cs with
      | [] => [[c]]
      | h :: t => (c :: h) :: t := by
  simp only [splitAll, List.length_cons]
  rw [splitGo, if_neg h]

theorem splitGo_ne_nil (pat : Text) : ∀ (n : Nat) (s : Text), splitGo pat n s ≠ [] := by
  intro n
  induction n with
  | zero =>
    intro s
    cases s <;> simp [splitGo]
  | succ k ih =>
    intro s
    cases s with
    | nil => simp [splitGo]
    | cons c cs =>
      rw [splitGo]
      by_cases h : pat.isPrefixOf (c :: cs) = true
      · rw [if_pos h]; simp
      · rw [if_neg h]
        cases hs : splitGo pat k cs with
        | nil => simp
        | cons a as => simp

theorem splitAll_ne_nil (pat s : Text) : splitAll pat s ≠ [] :=
  splitGo_ne_nil pat s.length s

theorem joinWith_nil (sep : Text) : joinWith sep [] = [] := rfl

theorem joinWith_one (sep p : Text) : joinWith sep [p] = p := rfl

theorem joinWith_cons (sep p : Text) {ps : List Text} (h : ps ≠ []) :
    joinWith sep (p :: ps) = p ++ sep ++ joinWith sep ps := by
  cases ps with
  | nil => exact absurd rfl h
  | cons q qs => rfl

end StepLemmas

section SplitJoin

/-- Replacing every occurrence is the same as splitting at the occurrences
and joining the pieces with the replacement (Python's
`new.join(s.split(old))` identity for a nonempty `old`). -/
theorem splitJoin_aux {pat : Text} (rep : Text) (hne : pat ≠ []) :
    ∀ (n : Nat) (s : Text), s.length ≤ n →
      replaceAll pat rep s = joinWith rep (splitAll pat s) := by
  intro n
  induction n with
  | zero =>
    intro s hs
    have : s = [] := List.eq_nil_of_length_eq_zero (Nat.le_zero.mp hs)
    subst this
    rw [replaceAll_nil rep hne, splitAll_nil, joinWith_one]
  | succ k ih =>
    intro s hs
    cases s with
    | nil => rw [replaceAll_nil rep hne, splitAll_nil, joinWith_one]
    | cons c cs =>
      have hcs : cs.length ≤ k := by simp only [List.length_cons] at hs; omega
      by_cases h : pat.isPrefixOf (c :: cs) = true
      · rw [replaceAll_cons_hit rep hne h, splitAll_cons_hit h,
          joinWith_cons rep [] (splitAll_ne_nil pat _),
          ih _ (le_trans (by rw [List.length_drop]; omega) hcs)]
        simp
      · rw [replaceAll_cons_miss rep hne h, splitAll_cons_miss h,
          ih _ hcs]
        obtain ⟨h', t', hsplit⟩ :
            ∃ h' t', splitAll pat cs = h' :: t' := by
          cases hq : splitAll pat cs with
          | nil => exact absurd hq (splitAll_ne_nil pat cs)
          | cons a as => exact ⟨a, as, rfl⟩
        rw [hsplit]
        cases t' with
        | nil => simp [joinWith_one]
        | cons q qs =>
          rw [joinWith_cons rep h' (by simp), joinWith_cons rep (c :: h') (by simp)]
          simp

theorem splitJoin {pat : Text} (rep : Text) (hne : pat ≠ []) (s : Text) :
    replaceAll pat rep s = joinWith rep (splitAll pat s) :=
  splitJoin_aux rep hne s.length s le_rfl

/-- The first piece of the split is a prefix of the text. -/
theorem splitAll_head_aux {pat : Text} :
    ∀ (n : Nat) (s : Text), s.length ≤ n →
      ∀ {h : Text} {t : List Text}, splitAll pat s = h :: t → ∃ r, s = h ++ r := by
  intro n
  induction n with
  | zero =>
    intro s hs h t heq
    have : s = [] := List.eq_nil_of_length_eq_zero (Nat.le_zero.mp hs)
    subst this
    rw [splitAll_nil] at heq
    cases heq
    exact ⟨[], rfl⟩
  | succ k ih =>
    intro s hs h t heq
    cases s with
    | nil =>
      rw [splitAll_nil] at heq
      cases heq
      exact ⟨[], rfl⟩
    | cons c cs =>
      have hcs : cs.length ≤ k := by simp only [List.length_cons] at hs; omega
      by_cases hp : pat.isPrefixOf (c :: cs) = true
      · rw [splitAll_cons_hit hp] at heq
        cases heq
        exact ⟨c :: cs, rfl⟩
      · rw [splitAll_cons_miss hp] at heq
        obtain ⟨h', t', hsplit⟩ :
            ∃ h' t', splitAll pat cs = h' :: t' := by
          cases hq : splitAll pat cs with
          | nil => exact absurd hq (splitAll_ne_nil pat cs)
          | cons a as => exact ⟨a, as, rfl⟩
        rw [hsplit] at heq
        cases heq
        obtain ⟨r, hr⟩ := ih cs hcs hsplit
        exact ⟨r, by rw [List.cons_append, ← hr]⟩

/-- No piece of the split contains the pattern: the greedy left-to-right
scan replaces every occurrence. -/
theorem splitAll_free_aux {pat : Text} (hne : pat ≠ []) :
    ∀ (n : Nat) (s : Text), s.length ≤ n →
      ∀ p ∈ splitAll pat s, ¬ OccursIn pat p := by
  intro n
  induction n with
  | zero =>
    intro s hs p hp
    have : s = [] := List.eq_nil_of_length_eq_zero (Nat.le_zero.mp hs)
    subst this
    rw [splitAll_nil] at hp
    simp only [List.mem_singleton] at hp
    subst hp
    rw [occursIn_nil]
    exact hne
  | succ k ih =>
    intro s hs p hp
    cases s with
    | nil =>
      rw [splitAll_nil] at hp
      simp only [List.mem_singleton] at hp
      subst hp
      rw [occursIn_nil]
      exact hne
    | cons c cs =>
      have hcs : cs.length ≤ k := by simp only [List.length_cons] at hs; omega
      have hdrop : (cs.drop (pat.length - 1)).length ≤ k :=
        le_trans (by rw [List.length_drop]; omega) hcs
      by_cases hm : pat.isPrefixOf (c :: cs) = true
      · rw [splitAll_cons_hit hm] at hp
        rcases List.mem_cons.mp hp with rfl | hp'
        · rw [occursIn_nil]; exact hne
        · exact ih _ hdrop p hp'
      · rw [splitAll_cons_miss hm] at hp
        obtain ⟨h', t', hsplit⟩ :
            ∃ h' t', splitAll pat cs = h' :: t' := by
          cases hq : splitAll pat cs with
          | nil => exact absurd hq (splitAll_ne_nil pat cs)
          | cons a as => exact ⟨a, as, rfl⟩
        rw [hsplit] at hp
        rcases List.mem_cons.mp hp with rfl | hp'
        · rintro ⟨a, b, hab⟩
          cases a with
          | nil =>
            simp only [List.nil_append] at hab
            obtain ⟨r, hr⟩ := splitAll_head_aux k cs hcs hsplit
            apply hm
            rw [isPrefixOf_eq]
            cases pat with
            | nil => exact absurd rfl hne
            | cons x xs =>
              rw [List.cons_append, List.cons.injEq] at hab
              refine ⟨b ++ r, ?_⟩
              rw [hab.1, hr, hab.2]
              simp
          | cons x a' =>
            rw [List.cons_append, List.cons_append, List.cons.injEq] at hab
            exact ih cs hcs h' (hsplit ▸ List.mem_cons_self h' t')
              ⟨a', b, hab.2⟩
        · exact ih cs hcs p (hsplit ▸ List.mem_cons_of_mem h' hp')

/-- Every piece of the split occurs in the original text. -/
theorem splitAll_sub_aux {pat : Text} :
    ∀ (n : Nat) (s : Text), s.length ≤ n →
      ∀ p ∈ splitAll pat s, OccursIn p s := by
  intro n
  induction n with
  | zero =>
    intro s hs p hp
    have : s = [] := List.eq_nil_of_length_eq_zero (Nat.le_zero.mp hs)
    subst this
    rw [splitAll_nil] at hp
    simp only [List.mem_singleton] at hp
    subst hp
    exact ⟨[], [], rfl⟩
  | succ k ih =>
    intro s hs p hp
    cases s with
    | nil =>
      rw [splitAll_nil] at hp
      simp only [List.mem_singleton] at hp
      subst hp
      exact ⟨[], [], rfl⟩
    | cons c cs =>
      have hcs : cs.length ≤ k := by simp only [List.length_cons] at hs; omega
      have hdrop : (cs.drop (pat.length - 1)).length ≤ k :=
        le_trans (by rw [List.length_drop]; omega) hcs
      by_cases hm : pat.isPrefixOf (c :: cs) = true
      · rw [splitAll_cons_hit hm] at hp
        rcases List.mem_cons.mp hp with rfl | hp'
        · exact ⟨[], c :: cs, rfl⟩
        · obtain ⟨a, b, hab⟩ := ih _ hdrop p hp'
          refine ⟨c :: (cs.take (pat.length - 1) ++ a), b, ?_⟩
          have hcs2 : cs = cs.take (pat.length - 1) ++ (a ++ p ++ b) := by
            conv_lhs => rw [← List.take_append_drop (pat.length - 1) cs]
            rw [hab]
          conv_lhs => rw [hcs2]
          simp [List.append_assoc]
      · rw [splitAll_cons_miss hm] at hp
        obtain ⟨h', t', hsplit⟩ :
            ∃ h' t', splitAll pat cs = h' :: t' := by
          cases hq : splitAll pat cs with
          | nil => exact absurd hq (splitAll_ne_nil pat cs)
          | cons a as => exact ⟨a, as, rfl⟩
        rw [hsplit] at hp
        rcases List.mem_cons.mp hp with rfl | hp'
        · obtain ⟨r, hr⟩ := splitAll_head_aux k cs hcs hsplit
          exact ⟨[], r, by rw [hr]; rfl⟩
        · exact occursIn_of_cons
            (ih cs hcs p (hsplit ▸ List.mem_cons_of_mem h' hp'))

/-- A pass whose pattern does not occur in the text is the identity. -/
theorem replaceAll_of_not_occurs {pat : Text} (rep : Text) :
    ∀ s : Text, ¬ OccursIn pat s → replaceAll pat rep s = s := by
  have hmain : ∀ (n : Nat) (s : Text), s.length ≤ n →
      ¬ OccursIn pat s → replaceAll pat rep s = s := by
    intro n
    induction n with
    | zero =>
      intro s hs hocc
      have : s = [] := List.eq_nil_of_length_eq_zero (Nat.le_zero.mp hs)
      subst this
      have hne : pat ≠ [] := by
        rintro rfl
        exact hocc ⟨[], [], rfl⟩
      exact replaceAll_nil rep hne
    | succ k ih =>
      intro s hs hocc
      have hne : pat ≠ [] := by
        rintro rfl
        exact hocc ⟨[], s, by simp⟩
      cases s with
      | nil => exact replaceAll_nil rep hne
      | cons c cs =>
        have hcs : cs.length ≤ k := by simp only [List.length_cons] at hs; omega
        by_cases hm : pat.isPrefixOf (c :: cs) = true
        · obtain ⟨r, hr⟩ := isPrefixOf_eq.mp hm
          exact absurd ⟨[], r, by rw [hr]; rfl⟩ hocc
        · rw [replaceAll_cons_miss rep hne hm,
            ih cs hcs (fun h => hocc (occursIn_of_cons h))]
  intro s
  exact hmain s.length s le_rfl

end SplitJoin

section Junctions

/-- An occurrence in a concatenation lies in the left part, in the right
part, or spans the junction. -/
theorem occursIn_append {pat X Y : Text} (h : OccursIn pat (X ++ Y)) :
    OccursIn pat X ∨ OccursIn pat Y ∨
      ∃ u v, pat = u ++ v ∧ u ≠ [] ∧ v ≠ [] ∧
        (∃ a, X = a ++ u) ∧ (∃ b, Y = v ++ b) := by
  induction X with
  | nil => exact Or.inr (Or.inl (by simpa using h))
  | cons c X' ih =>
    rw [List.cons_append] at h
    rcases occursIn_cons_iff.mp h with ⟨r, hr⟩ | htail
    · cases pat with
      | nil => exact Or.inl ⟨[], c :: X', by simp⟩
      | cons d p' =>
        rw [List.cons_append, List.cons.injEq] at hr
        obtain ⟨rfl, hr2⟩ := hr
        rcases List.append_eq_append_iff.mp hr2 with ⟨w, hpw, hYw⟩ | ⟨w, hXw, hrw⟩
        · cases w with
          | nil =>
            simp only [List.append_nil] at hpw
            exact Or.inl ⟨[], [], by simp [hpw]⟩
          | cons e w' =>
            refine Or.inr (Or.inr ⟨c :: X', e :: w', ?_, by simp, by simp,
              ⟨[], rfl⟩, ⟨r, hYw⟩⟩)
            rw [hpw, List.cons_append]
        · exact Or.inl ⟨[], w, by simp [hXw]⟩
    · rcases ih htail with hX | hY | ⟨u, v, h1, h2, h3, ⟨a, ha⟩, hb⟩
      · exact Or.inl (occursIn_of_cons hX)
      · exact Or.inr (Or.inl hY)
      · exact Or.inr (Or.inr ⟨u, v, h1, h2, h3, ⟨c :: a, by rw [ha]; rfl⟩, hb⟩)

theorem sepOK_spec {pat sep : Text} (h : sepOK pat sep = true) :
    sep ≠ [] ∧ ¬ OccursIn pat sep ∧ ¬ OccursIn sep pat ∧
      (∀ u v : Text, pat = u ++ v → u ≠ [] → v ≠ [] → ¬ ∃ r, sep = v ++ r) ∧
      (∀ a w : Text, sep = a ++ w → a ≠ [] → w ≠ [] → ¬ ∃ r, pat = w ++ r) := by
  simp only [sepOK, Bool.and_eq_true] at h
  obtain ⟨⟨⟨⟨h1, h2⟩, h3⟩, h4⟩, h5⟩ := h
  rw [List.all_eq_true] at h4 h5
  refine ⟨?_, ?_, ?_, ?_, ?_⟩
  · rintro rfl
    simp [List.isEmpty] at h1
  · rw [Bool.not_eq_true'] at h2
    exact subB_eq_false.mp h2
  · rw [Bool.not_eq_true'] at h3
    exact subB_eq_false.mp h3
  · rintro u v hpat hu hv ⟨r, hr⟩
    have hi : u.length < pat.length := by
      rw [hpat, List.length_append]
      have := List.length_pos.mpr hv
      omega
    have h6 := h4 u.length (List.mem_range.mpr hi)
    have hu0 : (u.length == 0) = false := by
      have : u.length ≠ 0 := fun h0 => hu (List.eq_nil_of_length_eq_zero h0)
      exact beq_eq_false_iff_ne.mpr this
    rw [hu0, Bool.false_or, Bool.not_eq_true'] at h6
    have hdrop : pat.drop u.length = v := by
      rw [hpat]; exact List.drop_left u v
    rw [hdrop] at h6
    have hpre : v.isPrefixOf sep = true := isPrefixOf_eq.mpr ⟨r, hr⟩
    rw [h6] at hpre
    cases hpre
  · rintro a w hsep ha hw ⟨r, hr⟩
    have hi : a.length < sep.length := by
      rw [hsep, List.length_append]
      have := List.length_pos.mpr hw
      omega
    have h6 := h5 a.length (List.mem_range.mpr hi)
    have ha0 : (a.length == 0) = false := by
      have : a.length ≠ 0 := fun h0 => ha (List.eq_nil_of_length_eq_zero h0)
      exact beq_eq_false_iff_ne.mpr this
    rw [ha0, Bool.false_or, Bool.not_eq_true'] at h6
    have hdrop : sep.drop a.length = w := by
      rw [hsep]; exact List.drop_left a w
    rw [hdrop] at h6
    have hpre : w.isPrefixOf pat = true := isPrefixOf_eq.mpr ⟨r, hr⟩
    rw [h6] at hpre
    cases hpre

/-- Joining pattern-free pieces with a junction-safe separator yields a
pattern-free text. -/
theorem joinWith_free {pat sep : Text} (hne : pat ≠ []) (hok : sepOK pat sep = true) :
    ∀ parts : List Text, (∀ p ∈ parts, ¬ OccursIn pat p) →
      ¬ OccursIn pat (joinWith sep parts) := by
  obtain ⟨hsepne, hA, hE, hK1, hK3⟩ := sepOK_spec hok
  intro parts
  induction parts with
  | nil =>
    intro _ hocc
    rw [joinWith_nil, occursIn_nil] at hocc
    exact hne hocc
  | cons p ps ih =>
    intro hfree
    cases ps with
    | nil =>
      rw [joinWith_one]
      exact hfree p (List.mem_singleton.mpr rfl)
    | cons q qs =>
      intro hocc
      rw [joinWith_cons sep p (by simp), List.append_assoc] at hocc
      have hJ : ¬ OccursIn pat (joinWith sep (q :: qs)) :=
        ih fun x hx => hfree x (List.mem_cons_of_mem p hx)
      rcases occursIn_append hocc with hp | hrest | hspan
      · exact hfree p (List.mem_cons_self p (q :: qs)) hp
      · rcases occursIn_append hrest with hsep | hJ' | hspan2
        · exact hA hsep
        · exact hJ hJ'
        · obtain ⟨u', v', hpat, hu', hv', ⟨a, hsepa⟩, ⟨b, hJb⟩⟩ := hspan2
          cases a with
          | nil =>
            simp only [List.nil_append] at hsepa
            exact hE ⟨[], v', by simp [hpat, hsepa]⟩
          | cons x a' =>
            exact hK3 (x :: a') u' hsepa (by simp) hu' ⟨v', hpat⟩
      · obtain ⟨u, v, hpat, hu, hv, ⟨a, hpa⟩, ⟨b, hYv⟩⟩ := hspan
        rcases List.append_eq_append_iff.mp hYv.symm with ⟨w, hsw, _⟩ | ⟨w, hvw, _⟩
        · exact hK1 u v hpat hu hv ⟨w, hsw⟩
        · exact hE ⟨u, w, by simp [hpat, hvw, List.append_assoc]⟩

/-- After a junction-safe pass, the pass's own pattern no longer occurs:
every occurrence was replaced and none can be re-created at the seams. -/
theorem replaceAll_kills {pat rep : Text} (hne : pat ≠ [])
    (hok : sepOK pat rep = true) (s : Text) :
    ¬ OccursIn pat (replaceAll pat rep s) := by
  rw [splitJoin rep hne s]
  exact joinWith_free hne hok _
    (fun p hp => splitAll_free_aux hne s.length s le_rfl p hp)

/-- A junction-safe pass for a different rule cannot introduce the pattern
into a text that did not contain it. -/
theorem replaceAll_keeps {pat p' r' : Text} (hp' : p' ≠ [])
    (hok : sepOK pat r' = true) {s : Text} (hs : ¬ OccursIn pat s) :
    ¬ OccursIn pat (replaceAll p' r' s) := by
  have hne : pat ≠ [] := by
    rintro rfl
    exact hs ⟨[], s, by simp⟩
  rw [splitJoin r' hp' s]
  exact joinWith_free hne hok _ (fun p hp hocc =>
    hs (occursIn_trans hocc (splitAll_sub_aux s.length s le_rfl p hp)))

theorem safeRule_step {pat : Text} {pr : Text × Text} (h : safeRule pat pr = true)
    {s : Text} (hs : ¬ OccursIn pat s) :
    ¬ OccursIn pat (replaceAll pr.1 pr.2 s) := by
  rcases Bool.or_eq_true_iff.mp h with h1 | h2
  · have hocc1 : OccursIn pat pr.1 := subB_iff.mp h1
    have : ¬ OccursIn pr.1 s := fun hx => hs (occursIn_trans hocc1 hx)
    rw [replaceAll_of_not_occurs pr.2 s this]
    exact hs
  · rw [Bool.and_eq_true] at h2
    have hne : pr.1 ≠ [] := by
      intro hx
      rw [hx] at h2
      simp [List.isEmpty] at h2
    exact replaceAll_keeps hne h2.2 hs

end Junctions

section Engine

theorem applyRules_nil (s : Text) : applyRules [] s = s := rfl

theorem applyRules_cons (pr : Text × Text) (rs : List (Text × Text)) (s : Text) :
    applyRules (pr :: rs) s = applyRules rs (replaceAll pr.1 pr.2 s) := rfl

theorem applyRules_append (xs ys : List (Text × Text)) (s : Text) :
    applyRules (xs ++ ys) s = applyRules ys (applyRules xs s) := by
  simp [applyRules, List.foldl_append]

/-- Folding a list of rules that are all safe for a pattern over a
pattern-free text yields a pattern-free text. -/
theorem applyRules_safe {pat : Text} :
    ∀ (rules : List (Text × Text)) (s : Text),
      rules.all (safeRule pat) = true → ¬ OccursIn pat s →
      ¬ OccursIn pat (applyRules rules s) := by
  intro rules
  induction rules with
  | nil => intro s _ hs; exact hs
  | cons pr rs ih =>
    intro s hall hs
    rw [List.all_cons, Bool.and_eq_true] at hall
    rw [applyRules_cons]
    exact ih _ hall.2 (safeRule_step hall.1 hs)

/-- If no rule's pattern occurs in a text, the whole fold is the identity. -/
theorem applyRules_of_not_occurs :
    ∀ (rules : List (Text × Text)) (s : Text),
      (∀ pr ∈ rules, ¬ OccursIn pr.1 s) → applyRules rules s = s := by
  intro rules
  induction rules with
  | nil => intro s _; rfl
  | cons pr rs ih =>
    intro s hno
    rw [applyRules_cons,
      replaceAll_of_not_occurs pr.2 s (hno pr (List.mem_cons_self pr rs))]
    exact ih s fun q hq => hno q (List.mem_cons_of_mem pr hq)

/-- The source engine coincides with the spec-modelled engine whenever
every pattern is nonempty (true of the authored table). -/
theorem applyRules_eq_spec :
    ∀ (rules : List (Text × Text)) (s : Text),
      (∀ pr ∈ rules, pr.1 ≠ []) → applyRules rules s = applyRulesSpec rules s := by
  intro rules
  induction rules with
  | nil => intro s _; rfl
  | cons pr rs ih =>
    intro s hne
    rw [applyRules_cons, splitJoin pr.2 (hne pr (List.mem_cons_self pr rs)) s]
    exact ih _ fun q hq => hne q (List.mem_cons_of_mem pr hq)

end Engine

section Claims

set_option maxRecDepth 1000000
set_option maxHeartbeats 2000000

/-- The character data of a rewritten string is the fold of the rule
table over the input's character data. -/
theorem rewrite_data (t : String) :
    (rewrite t).data = applyRules RULES t.data := by
  unfold rewrite
  simp

/-- Claim C1: for every input text and the rule table, `rewrite` processes
the rules strictly in table order — each rule replaces every literal
occurrence of its pattern in the current accumulated text with its
replacement, the accumulated text after rule `i` is the input to rule
`i + 1`, and the final accumulated text is the result.  This is stated as
the equality of the source engine with the engine modelled from the
spec's words (`rewriteSpec`). -/
theorem C1_engine_follows_table_order (t : String) : rewrite t = rewriteSpec t := by
  unfold rewrite rewriteSpec
  rw [applyRules_eq_spec RULES t.data (by decide)]

/-- Claim C2: the changed flag returned by the rewrite is `true` if and
only if the final result differs from the original input under full
structural string equality. -/
theorem C2_changed_iff_differs (t : String) :
    (process_file t).2 = true ↔ (process_file t).1 ≠ t := by
  by_cases h : rewrite t ≠ t <;> simp [process_file, h]

/-- Claim C3 (refuted — the code contradicts the invariant its own
comments require): the table does NOT satisfy the most-specific-first
ordering.  The general rule 38 `bg-emerald-500 -> bg-success-500` precedes
rule 40 `hover:bg-emerald-500 -> hover:bg-success-400` whose pattern
contains it, so the rewrite of `"hover:bg-emerald-500"` is
`"hover:bg-success-500"` and rule 40's own replacement
`"hover:bg-success-400"` is unreachable. -/
theorem C3_table_violates_specific_first :
    specificFirstB REPLACEMENTS = false
      ∧ REPLACEMENTS.get? 38 = some ("bg-emerald-500", "bg-success-500")
      ∧ REPLACEMENTS.get? 40 = some ("hover:bg-emerald-500", "hover:bg-success-400")
      ∧ rewrite "hover:bg-emerald-500" = "hover:bg-success-500" :=
  ⟨by decide, by decide, by decide, by decide⟩

/-- Claim C4 counterexample: the input `"hover:bg-slate-800/50"` contains
`"bg-slate-800/50"` but rewrites to `"hover:bg-white/[0.05]"` (the even
more specific hover rule fires first), whose text does not contain the
claimed yield `"bg-white/[0.03]"` at all. -/
theorem C4_counterexample :
    subB "bg-slate-800/50".data "hover:bg-slate-800/50".data = true
      ∧ rewrite "hover:bg-slate-800/50" = "hover:bg-white/[0.05]"
      ∧ subB "bg-white/[0.03]".data (rewrite "hover:bg-slate-800/50").data = false :=
  ⟨by decide, by decide, by decide⟩

/-- Claim C4 as amended: for every input text, by the time the general
rule 20 `bg-slate-800 -> bg-gray-800` is reached, the accumulated text
contains no occurrence of `"bg-slate-800/50"` — every such occurrence was
consumed by an earlier more specific rule — so the general rule never
rewrites such an occurrence; in particular `"bg-slate-800/50"` itself
rewrites to `"bg-white/[0.03]"`, never `"bg-gray-800"`. -/
theorem C4_specific_rule_shields_general :
    (∀ t : String,
      subB "bg-slate-800/50".data (applyRules (RULES.take 20) t.data) = false)
      ∧ RULES.get? 20 = some ("bg-slate-800".data, "bg-gray-800".data)
      ∧ rewrite "bg-slate-800/50" = "bg-white/[0.03]" := by
  refine ⟨?_, by decide, by decide⟩
  intro t
  rw [subB_eq_false]
  have hdec : RULES.take 20 = RULES.take 16 ++
      [("bg-slate-800/50".data, "bg-white/[0.03]".data),
       ("bg-slate-800/30".data, "bg-white/[0.03]".data),
       ("bg-slate-800/20".data, "bg-white/[0.03]".data),
       ("bg-slate-900/50".data, "bg-gray-900".data)] := by decide
  rw [hdec, applyRules_append, applyRules_cons]
  exact applyRules_safe _ _ (by decide)
    (replaceAll_kills (by decide) (by decide) _)

/-- Claim C5: when no rule's pattern occurs in the result of a run, a
second run over that result changes nothing: the changed flag is `false`
and the result text is identical. -/
theorem C5_second_run_is_noop (t : String)
    (h : (RULES.all fun pr => !(subB pr.1 (rewrite t).data)) = true) :
    (process_file (rewrite t)).2 = false
      ∧ (process_file (rewrite t)).1 = rewrite t := by
  have hfix : rewrite (rewrite t) = rewrite t := by
    show String.mk (applyRules RULES (rewrite t).data) = rewrite t
    rw [applyRules_of_not_occurs RULES (rewrite t).data fun pr hpr => by
      have h2 := List.all_eq_true.mp h pr hpr
      rw [Bool.not_eq_true'] at h2
      exact subB_eq_false.mp h2]
  unfold process_file
  simp [hfix]

/-- Claim C5 witness: the table has no pattern left in the rewrite of
`"hello"`, and the second run reports no change. -/
theorem C5_witness :
    (process_file (rewrite "hello")).2 = false
      ∧ (process_file (rewrite "hello")).1 = rewrite "hello" :=
  C5_second_run_is_noop "hello" (by decide)

/-- Claim C6: a later rule whose pattern matches text produced by an
earlier rule's replacement fires on that produced text within the same
run: `"focus:ring-2 focus:ring-purple-500"` does not contain rule 80's
pattern `"focus:ring-2 focus:ring-brand-500"`, the accumulated text just
before rule 80 does contain it, and the final result is rule 80's
replacement. -/
theorem C6_later_rule_fires_on_produced_text :
    subB "focus:ring-2 focus:ring-brand-500".data
        "focus:ring-2 focus:ring-purple-500".data = false
      ∧ subB "focus:ring-2 focus:ring-brand-500".data
          (applyRules (RULES.take 80) "focus:ring-2 focus:ring-purple-500".data)
          = true
      ∧ RULES.get? 80 = some ("focus:ring-2 focus:ring-brand-500".data,
          "focus:outline-hidden focus:ring-3 focus:ring-brand-500/10".data)
      ∧ rewrite "focus:ring-2 focus:ring-purple-500"
          = "focus:outline-hidden focus:ring-3 focus:ring-brand-500/10" :=
  ⟨by decide, by decide, by decide, by decide⟩

/-- Claim C7: the documented scenario — the input
`"<div class=\"bg-slate-800 border-slate-700 text-slate-400\">"` rewrites
to `"<div class=\"bg-gray-800 border-gray-700 text-gray-400\">"` with the
changed flag `true`. -/
theorem C7_documented_scenario :
    rewrite "<div class=\"bg-slate-800 border-slate-700 text-slate-400\">"
        = "<div class=\"bg-gray-800 border-gray-700 text-gray-400\">"
      ∧ (process_file
          "<div class=\"bg-slate-800 border-slate-700 text-slate-400\">").2
          = true :=
  ⟨by decide, by decide⟩

/-- Claim C8: a target file name that does not exist yields exactly the
`MISSING` outcome, leaves the filesystem untouched, and the loop goes on
to the remaining names. -/
theorem C8_missing_file (fs : Fs) (name : String) (rest : List String)
    (h : fs name = none) :
    mainStep fs name = (fs, Outcome.missing)
      ∧ mainRun fs (name :: rest)
          = ((mainRun fs rest).1, Outcome.missing :: (mainRun fs rest).2) := by
  have h1 : mainStep fs name = (fs, Outcome.missing) := by
    unfold mainStep
    rw [h]
  exact ⟨h1, by simp [mainRun, h1]⟩

/-- Claim C8 witness: the empty filesystem misses `"GalaxyMap.tsx"` and
the loop continues with the next name. -/
theorem C8_witness :
    mainStep fsEmpty "GalaxyMap.tsx" = (fsEmpty, Outcome.missing)
      ∧ mainRun fsEmpty ["GalaxyMap.tsx", "LogViewer.tsx"]
          = ((mainRun fsEmpty ["LogViewer.tsx"]).1,
             Outcome.missing :: (mainRun fsEmpty ["LogViewer.tsx"]).2) :=
  C8_missing_file fsEmpty "GalaxyMap.tsx" ["LogViewer.tsx"] rfl

/-- Claim C9: for an existing file, a write happens if and only if the
rewrite changed the content: a changed rewrite overwrites the file with
the full result and reports `UPDATED`; an unchanged one performs no write
and reports `NO CHANGES`; other files are never touched. -/
theorem C9_write_iff_changed (fs : Fs) (name content : String)
    (h : fs name = some content) :
    (mainStep fs name).2
        = (if rewrite content ≠ content then Outcome.updated
           else Outcome.noChanges)
      ∧ (mainStep fs name).1 name
          = (if rewrite content ≠ content then some (rewrite content)
             else some content)
      ∧ ∀ n : String, n ≠ name → (mainStep fs name).1 n = fs n := by
  unfold mainStep
  rw [h]
  by_cases hc : rewrite content ≠ content
  · refine ⟨by simp [hc], by simp [hc], fun n hn => by simp [hc, hn]⟩
  · push_neg at hc
    refine ⟨by simp [hc], by simp [hc, h], fun n hn => by simp [hc]⟩

/-- Claim C9 witness: on a filesystem holding one component file whose
content the table rewrites, the orchestrator overwrites it in full and
reports `UPDATED`. -/
theorem C9_witness :
    (mainStep fsOne "AmazonConnect.tsx").2 = Outcome.updated
      ∧ (mainStep fsOne "AmazonConnect.tsx").1 "AmazonConnect.tsx"
          = some "text-gray-400" := by
  have h := C9_write_iff_changed fsOne "AmazonConnect.tsx" "text-slate-400"
    (by decide)
  exact ⟨h.1.trans (by decide), h.2.1.trans (by decide)⟩

/-- Claim C10 counterexample: deleting an occurrence of `"font-inter"`
concatenates the flanking text, which can re-form the substring — the
input `"fofont-internt-inter"` rewrites to `"font-inter"` itself. -/
theorem C10_counterexample :
    rewrite "fofont-internt-inter" = "font-inter"
      ∧ subB "font-inter".data (rewrite "fofont-internt-inter").data = true :=
  ⟨by decide, by decide⟩

/-- Claim C10 as amended: for every input text containing no occurrence of
the fragment `"fon"` (so the input cannot seed the substring), the rewrite
result contains no occurrence of `"font-inter"`: no rule's replacement
introduces one and the removal rules cannot fire; the unrestricted claim
fails because deletions can re-form the substring at their seams. -/
theorem C10_no_font_inter_without_seed (t : String)
    (h : subB "fon".data t.data = false) :
    subB "font-inter".data (rewrite t).data = false := by
  have hall : RULES.all (safeRule "fon".data) = true := by decide
  have hres : ¬ OccursIn "fon".data (applyRules RULES t.data) :=
    applyRules_safe RULES t.data hall (subB_eq_false.mp h)
  have hsub : OccursIn "fon".data "font-inter".data :=
    ⟨[], "t-inter".data, by decide⟩
  rw [rewrite_data, subB_eq_false]
  intro hocc
  exact hres (occursIn_trans hsub hocc)

/-- Claim C10 witness: a text without the fragment keeps the property. -/
theorem C10_witness :
    subB "font-inter".data (rewrite "hello").data = false :=
  C10_no_font_inter_without_seed "hello" (by decide)

end Claims

end DS
